import Mathlib

/-
Verification of the GMM (Gaussian Mixture Model) estimator of
nipy/neurospin/clustering/gmm.py.

The embedding represents numpy arrays as nested lists of reals
(row-major).  Python-2 machine floats are idealised as real numbers;
Python-2 integer arithmetic (including floor division) is modelled on
Nat/Int.  The external numerical collaborators that the file calls but
does not define (numpy.linalg.eigvalsh, numpy.linalg.pinv, and the
compiled k-means routine fc.kmeans) are modelled as an environment of
oracle functions; the k-means oracle takes an extra call-index argument
so that distinct calls of the impure collaborator may return distinct
results.  Fallible code (raise ValueError / NameError) is modelled with
Except.
-/

open scoped Classical

namespace Nipy

abbrev Vec := List ℝ
abbrev Mat := List (List ℝ)

/-- numpy shape[1] of a (rectangular) 2-d array. -/
def cols (m : Mat) : ℕ := (m.headD []).length

/-- Entry (i, j) of a matrix, 0 outside the support. -/
def matGet (m : Mat) (i j : ℕ) : ℝ := (m.getD i []).getD j 0

/-- Elementwise vector difference (numpy `u - v`). -/
def vsub (u v : Vec) : Vec := List.zipWith (fun a b => a - b) u v

/-- np.dot(a.T, b): entry (i, j) is the sum over rows r of a[r][i]*b[r][j]. -/
def tdot (a b : Mat) : Mat :=
  (List.range (cols a)).map fun i =>
    (List.range (cols b)).map fun j =>
      (List.zipWith (fun ar br => ar.getD i 0 * br.getD j 0) a b).sum

/-- Column sums: np.sum(m, 0). -/
def csum (m : Mat) : Vec :=
  (List.range (cols m)).map fun i => (m.map fun r => r.getD i 0).sum

/-- np.eye(n). -/
def idMat (n : ℕ) : Mat :=
  (List.range n).map fun i => (List.range n).map fun j => if i = j then (1 : ℝ) else 0

/-- np.diag(v) for a vector: the diagonal matrix with v on the diagonal. -/
def diagMat (v : Vec) : Mat :=
  (List.range v.length).map fun i =>
    (List.range v.length).map fun j => if i = j then v.getD i 0 else 0

/-- np.diag(a) for a square matrix: its diagonal as a vector. -/
def diagVec (a : Mat) : Vec := (List.range a.length).map fun i => matGet a i i

/-- The quadratic form v . (B v) appearing in the full-precision exponent
np.sum(np.dot(m-x,b)*(m-x),1). -/
def quadForm (b : Mat) (v : Vec) : ℝ :=
  ((List.range (cols b)).map fun j =>
    (List.zipWith (fun vi br => vi * br.getD j 0) v b).sum * v.getD j 0).sum

/-- The covariance parameterization tag carried by `prec_type`
('full' / 'diag' in the source; `other` stands for any other string). -/
inductive PrecType
  | full
  | diag
  | other
deriving DecidableEq

/-- Storage for `precisions` / `prior_scale`: a (k, dim, dim) array for the
full parameterization, a (k, dim) array for the diagonal one. -/
inductive Precs
  | full (ps : List Mat)
  | diag (ps : Mat)

/-- numpy shape[0] of the precision store. -/
def Precs.shape0 : Precs → ℕ
  | .full ps => ps.length
  | .diag ps => ps.length

/-- numpy shape[1] of the precision store. -/
def Precs.shape1 : Precs → ℕ
  | .full ps => (ps.headD []).length
  | .diag ps => cols ps

/-- Component i of a full precision store (unreachable default otherwise). -/
def Precs.fullAt : Precs → ℕ → Mat
  | .full ps, i => ps.getD i []
  | .diag _, _ => []

/-- Component i of a diagonal precision store (unreachable default otherwise). -/
def Precs.diagAt : Precs → ℕ → Vec
  | .diag ps, i => ps.getD i []
  | .full _, _ => []

/-- The error kinds the source raises: ValueError on shape mismatch,
ValueError 'unknown precisions type', ValueError 'incorrect size for x',
and the NameError / UnboundLocalError of `estimate` when its loop body
never ran. -/
inductive Err
  | badShape
  | unknownType
  | badX
  | nameUndefined
deriving DecidableEq

/-- The external collaborators of gmm.py, not part of this repository's
source: numpy.linalg.eigvalsh, numpy.linalg.pinv and the compiled
fc.kmeans clustering routine (centers, labels, inertia).  kmeans takes a
call index modelling the independent randomness of each invocation. -/
structure Env where
  eigvalsh : Mat → Vec
  pinv : Mat → Mat
  kmeans : ℕ → Mat → ℕ → Mat × List ℕ × ℝ

/-- The GMM model state.  The prior_* fields are created dynamically by
guess_regularizing in the source; before it runs they hold placeholder
values that no embedded code path reads. -/
structure GMM where
  k : ℕ
  dim : ℕ
  prec_type : PrecType
  means : Mat
  precisions : Precs
  weights : Vec
  prior_means : Mat := []
  prior_weights : Vec := []
  prior_scale : Precs := .diag []
  prior_dof : ℝ := 0
  prior_shrinkage : ℝ := 0

/-- GMM.__init__ with the default (None) parameters: zero means,
identity (full) or unit (diagonal and any other tag) precisions and
uniform weights.  The constructor performs no validation. -/
noncomputable def GMM.init (k dim : ℕ) (pt : PrecType) : GMM where
  k := k
  dim := dim
  prec_type := pt
  means := List.replicate k (List.replicate dim 0)
  precisions :=
    match pt with
    | .full => .full (List.replicate k (idMat dim))
    | _ => .diag (List.replicate k (List.replicate dim 1))
  weights := List.replicate k ((1 : ℝ) / k)

/-- GMM.check: the shape checks, in source order, as a chain of guards;
the final test raises 'unknown precisions type' when prec_type is
neither full nor diag.  (For a full tag the source reads shape[2],
which a diagonal store does not have; that mismatch is mapped to the
shape error.) -/
noncomputable def GMM.check (m : GMM) : Except Err Unit :=
  if m.means.length ≠ m.k then .error .badShape
  else if cols m.means ≠ m.dim then .error .badShape
  else if m.weights.length ≠ m.k then .error .badShape
  else if m.dim ≠ m.precisions.shape1 then .error .badShape
  else if m.prec_type = .full ∧ (match m.precisions with
      | .full ps => m.dim ≠ cols (ps.headD [])
      | .diag _ => True) then .error .badShape
  else if m.prec_type = .diag ∧ (match m.precisions with
      | .diag ps => ¬(ps.length = m.means.length ∧ cols ps = cols m.means)
      | .full _ => True) then .error .badShape
  else if m.precisions.shape0 ≠ m.k then .error .badShape
  else if m.prec_type ≠ .full ∧ m.prec_type ≠ .diag then .error .unknownType
  else .ok ()

/-- GMM.plugin: set means/precisions/weights, then check. -/
noncomputable def GMM.plugin (m : GMM) (means : Mat) (precisions : Precs) (weights : Vec) :
    Except Err GMM :=
  let m' : GMM := { m with means := means, precisions := precisions, weights := weights }
  (m'.check).map fun _ => m'

/-- GMM.check_x: checks x.shape[1] == dim.  (The scalar-input reshape of
the source is the identity on the rectangular 2-d arrays modelled here.) -/
def GMM.check_x (m : GMM) (x : Mat) : Except Err Mat :=
  if cols x ≠ m.dim then .error .badX else .ok x

/-- The 1e-15 singularity floor used throughout the source. -/
noncomputable def tiny : ℝ := 1e-15

/-- Row normalization (l.T/sl).T with sl = np.maximum(tiny, np.sum(l,1)),
shared by GMM.pop and GMM._Mstep. -/
noncomputable def normRows (l : Mat) : Mat :=
  List.zipWith (fun r s => r.map (· / s)) l (l.map fun r => max tiny r.sum)

/-- GMM.pop: column sums of the row-normalized likelihood. -/
noncomputable def GMM.pop (_m : GMM) (l : Mat) : Vec := csum (normRows l)

/-- GMM.unweighted_likelihood: per-sample, per-component Gaussian density.
For 'full' the log-normalizer uses the sum of log eigenvalues of the
precision matrix (the eigvalsh collaborator); every other tag takes the
diagonal branch of the source's if/else. -/
noncomputable def GMM.unweighted_likelihood (env : Env) (m : GMM) (x : Mat) : Mat :=
  x.map fun xr =>
    (List.range m.k).map fun i =>
      let mu := m.means.getD i []
      let w0 : ℝ :=
        -(Real.log (2 * Real.pi)) * m.dim +
          (match m.prec_type with
           | .full => ((env.eigvalsh (m.precisions.fullAt i)).map Real.log).sum
           | _ => ((m.precisions.diagAt i).map Real.log).sum)
      let q : ℝ :=
        match m.prec_type with
        | .full => quadForm (m.precisions.fullAt i) (vsub mu xr)
        | _ => (List.zipWith (fun d p => d ^ 2 * p) (vsub mu xr) (m.precisions.diagAt i)).sum
      Real.exp ((w0 - q) / 2)

/-- GMM.likelihood: the unweighted likelihood scaled columnwise by the
mixture weights. -/
noncomputable def GMM.likelihood (env : Env) (m : GMM) (x : Mat) : Mat :=
  (m.unweighted_likelihood env x).map fun r => List.zipWith (fun a w => a * w) r m.weights

/-- GMM._Estep: returns the (unnormalized) weighted likelihood matrix. -/
noncomputable def GMM._Estep (env : Env) (m : GMM) (x : Mat) : Mat :=
  m.likelihood env x

/-- GMM.bic: sum of log row sums (floored at tiny) minus log(n) times the
free-parameter count; the integer expressions replicate the source's
Python-2 arithmetic, including the floor division in the 'full' count. -/
noncomputable def GMM.bic (m : GMM) (like : Mat) : ℝ :=
  let sl := like.map fun r => max tiny r.sum
  let bicc := (sl.map Real.log).sum
  let n := like.length
  let eta : ℤ :=
    match m.prec_type with
    | .full => (m.k : ℤ) * (1 + m.dim + (m.dim * m.dim + 1) / 2 : ℕ) - 1
    | _ => (m.k : ℤ) * (1 + 2 * m.dim : ℕ) - 1
  bicc - Real.log n * eta

/-- GMM.evidence: check x, then the bic of the weighted likelihood. -/
noncomputable def GMM.evidence (env : Env) (m : GMM) (x : Mat) : Except Err ℝ := do
  let x ← m.check_x x
  pure (m.bic (m.likelihood env x))

/-- The empirical covariance vx = (x - mx).T (x - mx) / n built by
guess_regularizing. -/
noncomputable def empCov (x : Mat) : Mat :=
  let n := x.length
  let mx : Vec := (csum x).map (· / n)
  let dx : Mat := x.map fun r => vsub r mx
  (tdot dx dx).map fun r => r.map (· / n)

/-- The model state after guess_regularizing has set the Fraley-Raftery
weakly informative priors (and reset the weights), before the optional
shape check. -/
noncomputable def guessed (m : GMM) (x : Mat) : GMM :=
  let small : ℝ := 0.01
  let n := x.length
  let mx : Vec := (csum x).map (· / n)
  let vx : Mat := empCov x
  let c : ℝ := Real.exp (2 / (m.dim : ℝ) * Real.log (m.k : ℝ))
  let scale : Precs :=
    match m.prec_type with
    | .full => .full (List.replicate m.k ((diagMat ((diagVec vx).map (1 / ·))).map
        fun r => r.map (· * c)))
    | _ => .diag (List.replicate m.k (((diagVec vx).map (1 / ·)).map (· * c)))
  { m with
    prior_means := List.replicate m.k mx
    prior_weights := List.replicate m.k ((1 : ℝ) / m.k)
    prior_scale := scale
    prior_dof := (m.dim : ℝ) + 2
    prior_shrinkage := small
    weights := List.replicate m.k ((1 : ℝ) / m.k) }

/-- GMM.guess_regularizing: the Fraley-Raftery weakly informative prior
built from the empirical mean and covariance of x, followed (for
bcheck) by the shape check. -/
noncomputable def GMM.guess_regularizing (m : GMM) (x : Mat) (bcheck : Bool) :
    Except Err GMM :=
  if bcheck then ((guessed m x).check).map fun _ => guessed m x
  else .ok (guessed m x)

/-- GMM._Mstep: the regularized (MAP) update of weights, means and
precisions.  The matrix 'like' is first row-normalized (reusing the
normalization of pop); the empcov arrays are built per component as in
the source, with shapes driven by k as np.zeros(shape(precisions)) is. -/
noncomputable def GMM._Mstep (env : Env) (m : GMM) (x : Mat) (like : Mat) : GMM :=
  let pop := m.pop like
  let nl := normRows like
  let w1 := List.zipWith (fun a b => a + b) m.prior_weights pop
  let weights := w1.map (· / w1.sum)
  let shrinkage := pop.map (· + m.prior_shrinkage)
  let mnum := List.zipWith (fun row pm => List.zipWith (fun a b => a + b) row
      (pm.map (m.prior_shrinkage * ·))) (tdot nl x) m.prior_means
  let means := List.zipWith (fun row s => row.map (· / s)) mnum shrinkage
  let empmeans := List.zipWith (fun row p => row.map (· / max p tiny)) (tdot nl x) pop
  let precisions : Precs :=
    match m.prec_type with
    | .full =>
      let covariance := (List.range m.k).map fun i =>
        let dxi : Mat := x.map fun xr => vsub xr (empmeans.getD i [])
        let empcov : Mat := tdot dxi (List.zipWith
          (fun nr dr => dr.map ((nr.getD i 0) * ·)) nl dxi)
        let c1 := List.zipWith (fun r s => List.zipWith (fun a b => a + b) r s)
          (env.pinv (m.prior_scale.fullAt i)) empcov
        let dv : Vec := vsub (empmeans.getD i []) (m.prior_means.getD i [])
        let addcov : Mat := dv.map fun a => dv.map fun b => a * b
        let apms : ℝ := m.prior_shrinkage * pop.getD i 0 / (shrinkage.getD i 0)
        let c2 := List.zipWith (fun r s => List.zipWith (fun a b => a + b) r s) c1
          (addcov.map fun r => r.map (· * apms))
        let dof : ℝ := m.prior_dof + pop.getD i 0 + m.dim + 2
        c2.map fun r => r.map (· / dof)
      .full ((List.range m.k).map fun i => env.pinv (covariance.getD i []))
    | _ =>
      let covariance := (List.range m.k).map fun i =>
        let dxi : Mat := x.map fun xr => vsub xr (empmeans.getD i [])
        let empcov : Vec := csum (List.zipWith
          (fun nr dr => (dr.map (· ^ 2)).map ((nr.getD i 0) * ·)) nl dxi)
        let c1 := List.zipWith (fun a b => a + b)
          ((m.prior_scale.diagAt i).map ((1 : ℝ) / ·)) empcov
        let dv : Vec := vsub (empmeans.getD i []) (m.prior_means.getD i [])
        let addcov : ℝ := (dv.map (· ^ 2)).sum
        let apms : ℝ := m.prior_shrinkage * pop.getD i 0 / (shrinkage.getD i 0)
        let c2 := c1.map fun a => a + addcov * apms
        let dof : ℝ := m.prior_dof + pop.getD i 0 + m.dim + 2
        c2.map (· / dof)
      .diag ((List.range m.k).map fun i => (covariance.getD i []).map ((1 : ℝ) / ·))
  { m with weights := weights, means := means, precisions := precisions }

/-- GMM.update: identical to _Mstep. -/
noncomputable def GMM.update (env : Env) (m : GMM) (x : Mat) (l : Mat) : GMM :=
  m._Mstep env x l

/-- GMM.initialize of the source (renamed): set the regularizing priors,
seed memberships by k-means (or a single-cluster labelling when k = 1),
build the one-hot responsibility matrix and run one update. -/
noncomputable def GMM.initialise (env : Env) (m : GMM) (x : Mat) (seed : ℕ) :
    Except Err GMM := do
  let n := x.length
  let m ← m.guess_regularizing x true
  let z : List ℕ :=
    if 1 < m.k then (env.kmeans seed x m.k).2.1 else List.replicate n 0
  let l : Mat := (List.range n).map fun j =>
    (List.range m.k).map fun i => if z.getD j 0 = i then (1 : ℝ) else 0
  pure (m._Mstep env x l)

/-- np.mean(np.log(np.maximum(np.sum(l,1), tiny))): the average
log-likelihood monitored by the convergence loop. -/
noncomputable def avgLogLik (l : Mat) : ℝ :=
  ((l.map fun r => Real.log (max tiny r.sum)).sum) / l.length

/-- The convergence test `all < allOld + delta`; allOld = none models the
initial -infinity, for which the test is false on any finite all. -/
def stopCond (all : ℝ) (allOld : Option ℝ) (delta : ℝ) : Prop :=
  match allOld with
  | none => False
  | some a => all < a + delta

/-- The E/M loop of GMM.estimate: at each step compute the E-step matrix
and the average log-likelihood, stop before the M-step when the delta
test fires, otherwise remember the value and run the M-step.  The last
computed E-step matrix is carried for the final bic. -/
noncomputable def estLoop (env : Env) (x : Mat) (delta : ℝ) :
    ℕ → GMM → Option ℝ → Option Mat → GMM × Option Mat
  | 0, m, _, lastL => (m, lastL)
  | fuel + 1, m, allOld, _ =>
    let l := m._Estep env x
    let all := avgLogLik l
    if stopCond all allOld delta then (m, some l)
    else estLoop env x delta fuel (m._Mstep env x l) (some all) (some l)

/-- GMM.estimate: check x, run the E/M loop for at most niter
iterations, and return the bic of the likelihood matrix of the last
executed E-step; if the loop body never ran that matrix is the
undefined name 'l' of the source and a NameError results. -/
noncomputable def GMM.estimate (env : Env) (m : GMM) (x : Mat) (niter : ℕ)
    (delta : ℝ) : Except Err (GMM × ℝ) := do
  let x ← m.check_x x
  let r := estLoop env x delta niter m none none
  match r.2 with
  | none => .error .nameUndefined
  | some l => .ok (r.1, r.1.bic l)

/-- The strict improvement test `bic > bestbic`; bestbic = none models the
initial -infinity, which any finite value strictly exceeds. -/
def improves (best : Option ℝ) (bic : ℝ) : Prop :=
  match best with
  | none => True
  | some b => b < bic

/-- The best-of-ninit loop of GMM.initialize_and_estimate: state is the
mutated trial model, the best bic so far and the retained best model;
each cycle re-initialises (k-means reseeding via the collaborator, with
a fresh call index i+1), estimates, and keeps the trial's parameters
only when its bic strictly exceeds the best seen so far. -/
noncomputable def iaeLoop (env : Env) (x : Mat) (niter : ℕ) (delta : ℝ) :
    ℕ → ℕ → GMM → Option ℝ → GMM → Except Err (GMM × Option ℝ × GMM)
  | 0, _, self, bb, bg => .ok (self, bb, bg)
  | n + 1, i, self, bb, bg => do
    let s ← self.initialise env x (i + 1)
    let r ← s.estimate env x niter delta
    if improves bb r.2 then do
      let bg' ← bg.plugin r.1.means r.1.precisions r.1.weights
      iaeLoop env x niter delta n (i + 1) r.1 (some r.2) bg'
    else iaeLoop env x niter delta n (i + 1) r.1 bb bg

/-- GMM.initialize_and_estimate: build and initialise a fresh best-model
holder, run ninit independent initialise/estimate cycles and return the
holder carrying the parameters of the best cycle.  The prior-labelling
argument z is accepted and, as in the source, never read. -/
noncomputable def GMM.initialize_and_estimate (env : Env) (m : GMM) (x : Mat)
    (z : Option (List ℕ)) (niter : ℕ) (delta : ℝ) (ninit : ℕ) : Except Err GMM := do
  let bg0 ← (GMM.init m.k m.dim m.prec_type).initialise env x 0
  let r ← iaeLoop env x niter delta ninit 0 m none bg0
  pure r.2.2

/-- GMM.train: idem initialize_and_estimate. -/
noncomputable def GMM.train (env : Env) (m : GMM) (x : Mat) (z : Option (List ℕ))
    (niter : ℕ) (delta : ℝ) (ninit : ℕ) : Except Err GMM :=
  m.initialize_and_estimate env x z niter delta ninit

/-- The candidate examined by best_fitting_GMM for one component count:
a fresh model fitted by initialize_and_estimate, paired with its bic
evidence on x. -/
noncomputable def fitK (env : Env) (x : Mat) (pt : PrecType) (niter : ℕ)
    (delta : ℝ) (ninit : ℕ) (k : ℕ) : Except Err (GMM × ℝ) := do
  let g ← (GMM.init k (cols x) pt).initialize_and_estimate env x none niter delta ninit
  let bic ← g.evidence env x
  pure (g, bic)

/-- The best-of-krange loop of best_fitting_GMM; the state none models
the pair (bestbic = -infinity, bgmm undefined). -/
noncomputable def bfgLoop (env : Env) (x : Mat) (pt : PrecType) (niter : ℕ)
    (delta : ℝ) (ninit : ℕ) : List ℕ → Option (ℝ × GMM) → Except Err (Option (ℝ × GMM))
  | [], st => .ok st
  | k :: rest, st => do
    let r ← fitK env x pt niter delta ninit k
    match st with
    | none => bfgLoop env x pt niter delta ninit rest (some (r.2, r.1))
    | some (bb, bg) =>
      if bb < r.2 then bfgLoop env x pt niter delta ninit rest (some (r.2, r.1))
      else bfgLoop env x pt niter delta ninit rest (some (bb, bg))

/-- best_fitting_GMM: fit one fresh model per candidate k and return the
one with strictly highest evidence; an empty krange leaves bgmm as an
undefined name. -/
noncomputable def best_fitting_GMM (env : Env) (x : Mat) (krange : List ℕ)
    (pt : PrecType) (niter : ℕ) (delta : ℝ) (ninit : ℕ) : Except Err GMM := do
  let st ← bfgLoop env x pt niter delta ninit krange none
  match st with
  | none => .error .nameUndefined
  | some (_, bg) => pure bg

/-
Characterization helpers used by the theorems (not part of the
source translation): the pure E/M recurrences behind estimate's loop,
the per-cycle chain behind initialize_and_estimate's loop, and a pure
selection fold equivalent to the monadic loops on successful runs.
-/

/-- t alternations of E-step followed by M-step, starting from m. -/
noncomputable def emIter (env : Env) (x : Mat) (m : GMM) : ℕ → GMM
  | 0 => m
  | t + 1 => let mt := emIter env x m t; mt._Mstep env x (mt._Estep env x)

/-- The E-step matrix computed at the start of iteration t. -/
noncomputable def likAt (env : Env) (x : Mat) (m : GMM) (t : ℕ) : Mat :=
  (emIter env x m t)._Estep env x

/-- The average log-likelihood observed at iteration t. -/
noncomputable def allAt (env : Env) (x : Mat) (m : GMM) (t : ℕ) : ℝ :=
  avgLogLik (likAt env x m t)

/-- The delta test as seen at iteration t (never fires at t = 0, where
allOld is -infinity). -/
def stopsAt (env : Env) (x : Mat) (m : GMM) (delta : ℝ) (t : ℕ) : Prop :=
  0 < t ∧ allAt env x m t < allAt env x m (t - 1) + delta

/-- One initialise-then-estimate cycle outcome list: cs records, cycle by
cycle, the estimated model and its bic, each cycle starting from the
model state left by the previous one, with k-means call index i+1 at
position i. -/
inductive CycleChain (env : Env) (x : Mat) (niter : ℕ) (delta : ℝ) :
    GMM → ℕ → List (GMM × ℝ) → Prop
  | nil (self : GMM) (i : ℕ) : CycleChain env x niter delta self i []
  | cons (self : GMM) (i : ℕ) (r : GMM × ℝ) (rest : List (GMM × ℝ))
      (hr : (do
        let s ← self.initialise env x (i + 1)
        s.estimate env x niter delta) = .ok r)
      (hrest : CycleChain env x niter delta r.1 (i + 1) rest) :
      CycleChain env x niter delta self i (r :: rest)

/-- Overwrite a holder's parameters with those of a trial model
(the effect of a successful plugin). -/
def setParams (bg s : GMM) : GMM :=
  { bg with means := s.means, precisions := s.precisions, weights := s.weights }

/-- The pure reduction performed by the best-of-trials loops: scan the
candidates, overwriting the holder exactly when the score strictly
improves on the best seen so far. -/
noncomputable def pureSelect {α : Type} (upd : α → GMM × ℝ → α) :
    α → Option ℝ → List (GMM × ℝ) → α
  | a, _, [] => a
  | a, bb, (s, b) :: rest =>
    if improves bb b then pureSelect upd (upd a (s, b)) (some b) rest
    else pureSelect upd a bb rest

/-- The holder update performed by a successful plugin inside
initialize_and_estimate. -/
def iaeUpd : GMM → GMM × ℝ → GMM := fun a p => setParams a p.1

/-- The state update performed by best_fitting_GMM on improvement. -/
def bfgUpd : Option (ℝ × GMM) → GMM × ℝ → Option (ℝ × GMM) :=
  fun _ p => some (p.2, p.1)

/-- The best score recorded in a best_fitting_GMM state. -/
def optScore : Option (ℝ × GMM) → Option ℝ := Option.map Prod.fst

/-- A trivial concrete collaborator environment used by witnesses. -/
noncomputable def envW : Env where
  eigvalsh := fun _ => [2 * Real.pi]
  pinv := fun _ => [[0]]
  kmeans := fun _ _ _ => ([], [], 0)

/-- The model produced by guess_regularizing in the C7 witness run (the
default 1-d model with the priors set from the dataset [[0]]). -/
noncomputable def gW1 : GMM where
  k := 1
  dim := 1
  prec_type := .full
  means := [[0]]
  precisions := .full [[[1]]]
  weights := [1]
  prior_means := [[0]]
  prior_weights := [1]
  prior_scale := .full [[[0]]]
  prior_dof := 3
  prior_shrinkage := 0.01

/-- The fixed point of the witness E/M run: the model after the first
M-step (and after every further one) on the dataset [[0]]. -/
noncomputable def gW : GMM where
  k := 1
  dim := 1
  prec_type := .full
  means := [[0]]
  precisions := .full [[[0]]]
  weights := [1]
  prior_means := [[0]]
  prior_weights := [1]
  prior_scale := .full [[[0]]]
  prior_dof := 3
  prior_shrinkage := 0.01

/-- Modelled from the spec: the free-parameter count the spec states for
the BIC evidence, k*(1+dim+dim*(dim+1)/2) - 1 for Full and
k*(1+2*dim) - 1 for Diagonal. -/
def specFreeParams : PrecType → ℕ → ℕ → ℤ
  | .full, k, dim => (k : ℤ) * (1 + dim + dim * (dim + 1) / 2 : ℕ) - 1
  | _, k, dim => (k : ℤ) * (1 + 2 * dim : ℕ) - 1

/-- A 1-d, 1-component witness model with a set prior. -/
noncomputable def mW6 : GMM :=
  { GMM.init 1 1 .full with
    prior_means := [[5]]
    prior_shrinkage := 0.01 }


/-
Helper lemmas.
-/

lemma head?_replicate {α : Type} (a : α) (k : ℕ) (h : 1 ≤ k) :
    (List.replicate k a).head? = some a := by
  cases k with
  | zero => omega
  | succ n => rfl

lemma headD_replicate {α : Type} (d a : α) (k : ℕ) (h : 1 ≤ k) :
    (List.replicate k a).headD d = a := by
  cases k with
  | zero => omega
  | succ n => rfl

lemma cols_replicate (k dim : ℕ) (v : ℝ) (h : 1 ≤ k) :
    cols (List.replicate k (List.replicate dim v)) = dim := by
  unfold cols
  rw [headD_replicate _ _ _ h]
  simp

lemma length_idMat (dim : ℕ) : (idMat dim).length = dim := by
  simp [idMat]

lemma cols_idMat (dim : ℕ) (h : 1 ≤ dim) : cols (idMat dim) = dim := by
  cases dim with
  | zero => omega
  | succ n => simp [cols, idMat, List.range_succ_eq_map]

/-
Claim theorems.
-/

/-- Claim C1 (code bug): at the failing input dim = 2 (full model, k = 1,
two samples of unit row-sum likelihood) the bic computed by the code is
-(log 2 * 4), because the code's free-parameter count uses
(dim*dim+1)/2 with floor division, whereas the spec's BIC formula with
dim*(dim+1)/2 free covariance parameters gives -(log 2 * 5); the two
differ, so bic does not equal the spec's evidence score. -/
theorem claim_C1 :
    GMM.bic (GMM.init 1 2 .full) [[1], [1]] = -(Real.log 2 * 4) ∧
    GMM.bic (GMM.init 1 2 .full) [[1], [1]] ≠
      ((([[1], [1]] : Mat)).map fun r => Real.log (max r.sum tiny)).sum -
        Real.log 2 * specFreeParams .full 1 2 := by
  have htiny : tiny ≤ 1 := by norm_num [tiny]
  have hmax : max tiny (1 : ℝ) = 1 := max_eq_right htiny
  have hmax' : max (1 : ℝ) tiny = 1 := max_eq_left htiny
  have hcode : GMM.bic (GMM.init 1 2 .full) [[1], [1]] = -(Real.log 2 * 4) := by
    simp [GMM.bic, GMM.init, hmax, Real.log_one]
  refine ⟨hcode, ?_⟩
  rw [hcode]
  have hspec : ((([[1], [1]] : Mat)).map fun r => Real.log (max r.sum tiny)).sum -
      Real.log 2 * specFreeParams .full 1 2 = -(Real.log 2 * 5) := by
    simp [specFreeParams, hmax', Real.log_one]
  rw [hspec]
  have hlog : 0 < Real.log 2 := Real.log_pos (by norm_num)
  intro h
  nlinarith [hlog]

/-- Claim C4 counterexample: constructing a model whose precisionKind is
outside {Full, Diagonal} does not fail; the constructor returns a fully
formed model (with the diagonal-style placeholder precisions and
uniform weights).  Only check() reports the unknown parameterization. -/
theorem claim_C4_cex :
    (GMM.init 1 1 .other).means = [[0]] ∧
    (GMM.init 1 1 .other).precisions = .diag [[1]] ∧
    (GMM.init 1 1 .other).weights = [1] ∧
    GMM.check (GMM.init 1 1 .other) = .error .unknownType := by
  refine ⟨by simp [GMM.init], by simp [GMM.init], by norm_num [GMM.init], ?_⟩
  simp [GMM.check, GMM.init, cols, Precs.shape0, Precs.shape1]

/-- Claim C4 (amended): constructing a model with a precisionKind outside
{Full, Diagonal} succeeds (the constructor performs no validation and
installs the diagonal-style placeholder precisions), and check() on such
a model raises the UnknownParameterization error. -/
theorem claim_C4 (k dim : ℕ) (hk : 1 ≤ k) :
    (GMM.init k dim .other).precisions =
      .diag (List.replicate k (List.replicate dim 1)) ∧
    (GMM.init k dim .other).means = List.replicate k (List.replicate dim 0) ∧
    GMM.check (GMM.init k dim .other) = .error .unknownType := by
  refine ⟨by simp [GMM.init], by simp [GMM.init], ?_⟩
  simp [GMM.check, GMM.init, Precs.shape0, Precs.shape1, cols_replicate _ _ _ hk]

/-- Claim C4 witness: the amended claim at k = 1, dim = 1. -/
theorem claim_C4_w :
    1 ≤ 1 ∧
    ((GMM.init 1 1 .other).precisions =
        .diag (List.replicate 1 (List.replicate 1 1)) ∧
      (GMM.init 1 1 .other).means = List.replicate 1 (List.replicate 1 0) ∧
      GMM.check (GMM.init 1 1 .other) = .error .unknownType) :=
  ⟨Nat.le_refl 1, claim_C4 1 1 (Nat.le_refl 1)⟩

/-- Claim C8: a default-constructed model has zero means, identity (Full)
or all-ones (Diagonal) precisions and uniform 1/k weights, and passes
check() for every k >= 1, dim >= 1. -/
theorem claim_C8 (k dim : ℕ) (hk : 1 ≤ k) (hd : 1 ≤ dim) :
    ((GMM.init k dim .full).means = List.replicate k (List.replicate dim 0) ∧
      (GMM.init k dim .full).precisions = .full (List.replicate k (idMat dim)) ∧
      (GMM.init k dim .full).weights = List.replicate k (1 / (k : ℝ)) ∧
      GMM.check (GMM.init k dim .full) = .ok ()) ∧
    ((GMM.init k dim .diag).means = List.replicate k (List.replicate dim 0) ∧
      (GMM.init k dim .diag).precisions =
        .diag (List.replicate k (List.replicate dim 1)) ∧
      (GMM.init k dim .diag).weights = List.replicate k (1 / (k : ℝ)) ∧
      GMM.check (GMM.init k dim .diag) = .ok ()) := by
  constructor
  · refine ⟨by simp [GMM.init], by simp [GMM.init], by simp [GMM.init], ?_⟩
    simp [GMM.check, GMM.init, Precs.shape0, Precs.shape1,
      cols_replicate _ _ _ hk, head?_replicate _ _ hk, length_idMat,
      cols_idMat _ hd]
  · refine ⟨by simp [GMM.init], by simp [GMM.init], by simp [GMM.init], ?_⟩
    simp [GMM.check, GMM.init, Precs.shape0, Precs.shape1,
      cols_replicate _ _ _ hk]

/-- Claim C8 witness: the default model at k = 1, dim = 1. -/
theorem claim_C8_w :
    1 ≤ 1 ∧ GMM.check (GMM.init 1 1 .full) = .ok () ∧
      GMM.check (GMM.init 1 1 .diag) = .ok () :=
  ⟨Nat.le_refl 1, (claim_C8 1 1 (Nat.le_refl 1) (Nat.le_refl 1)).1.2.2.2,
    (claim_C8 1 1 (Nat.le_refl 1) (Nat.le_refl 1)).2.2.2.2⟩

/-- Claim C9: the initial-labels argument z of initialize_and_estimate
and of its alias train is never read: any two calls differing only in z
return equal results, and train agrees with initialize_and_estimate. -/
theorem claim_C9 (env : Env) (m : GMM) (x : Mat) (z1 z2 : Option (List ℕ))
    (niter : ℕ) (delta : ℝ) (ninit : ℕ) :
    m.initialize_and_estimate env x z1 niter delta ninit =
      m.initialize_and_estimate env x z2 niter delta ninit ∧
    m.train env x z1 niter delta ninit = m.train env x z2 niter delta ninit ∧
    m.train env x z1 niter delta ninit =
      m.initialize_and_estimate env x z1 niter delta ninit :=
  ⟨rfl, rfl, rfl⟩

lemma estLoop_isSome (env : Env) (x : Mat) (delta : ℝ) :
    ∀ (fuel : ℕ) (m : GMM) (aO : Option ℝ) (lO : Option Mat), 1 ≤ fuel →
      (estLoop env x delta fuel m aO lO).2.isSome := by
  intro fuel
  induction fuel with
  | zero => omega
  | succ f ih =>
    intro m aO lO _
    by_cases h : stopCond (avgLogLik (m._Estep env x)) aO delta
    · simp [estLoop, h]
    · simp only [estLoop, if_neg h]
      cases f with
      | zero => simp [estLoop]
      | succ f' => exact ih _ _ _ (by omega)

lemma exc_bind_ok {α β : Type} (a : α) (f : α → Except Err β) :
    (Except.ok a >>= f) = f a := rfl

lemma estimate_run (env : Env) (m : GMM) (x : Mat) (niter : ℕ) (delta : ℝ)
    (hcx : m.check_x x = .ok x) :
    m.estimate env x niter delta =
      match (estLoop env x delta niter m none none).2 with
      | none => .error .nameUndefined
      | some l => .ok ((estLoop env x delta niter m none none).1,
          (estLoop env x delta niter m none none).1.bic l) := by
  unfold GMM.estimate
  rw [hcx]
  simp only [exc_bind_ok]

lemma normRows_eq (l : Mat) :
    normRows l = l.map fun r => r.map (· / max tiny r.sum) := by
  induction l with
  | nil => rfl
  | cons r tl ih =>
    simp only [normRows, List.map_cons, List.zipWith_cons_cons] at ih ⊢
    rw [ih]

lemma sum_map_add {α : Type} (l : List α) (f g : α → ℝ) :
    (l.map fun a => f a + g a).sum = (l.map f).sum + (l.map g).sum := by
  induction l with
  | nil => simp
  | cons a tl ih => simp [ih]; ring

lemma sum_map_div {α : Type} (l : List α) (f : α → ℝ) (c : ℝ) :
    (l.map fun a => f a / c).sum = (l.map f).sum / c := by
  induction l with
  | nil => simp
  | cons a tl ih => simp [ih, add_div]

lemma sum_div_vec (v : Vec) (c : ℝ) : (v.map (· / c)).sum = v.sum / c := by
  induction v with
  | nil => simp
  | cons a tl ih => simp [ih, add_div]

lemma sum_zipWith_add :
    ∀ u v : Vec, u.length = v.length →
      (List.zipWith (fun a b => a + b) u v).sum = u.sum + v.sum := by
  intro u
  induction u with
  | nil =>
    intro v h
    have hv : v = [] := List.eq_nil_of_length_eq_zero h.symm
    subst hv
    simp
  | cons a tl ih =>
    intro v h
    cases v with
    | nil => simp at h
    | cons b vt =>
      simp only [List.zipWith_cons_cons, List.sum_cons, List.length_cons] at h ⊢
      rw [ih vt (by omega)]
      ring

lemma getD_zero_or_mem (v : Vec) (i : ℕ) : v.getD i 0 = 0 ∨ v.getD i 0 ∈ v := by
  induction v generalizing i with
  | nil => left; rfl
  | cons a tl ih =>
    cases i with
    | zero => right; simp [List.getD]
    | succ j =>
      rcases ih j with h | h
      · left; simpa [List.getD] using h
      · right; simp only [List.getD] at h ⊢; exact List.mem_cons_of_mem _ h

lemma getD_nonneg (v : Vec) (i : ℕ) (h : ∀ a ∈ v, 0 ≤ a) : 0 ≤ v.getD i 0 := by
  rcases getD_zero_or_mem v i with h0 | hm
  · rw [h0]
  · exact h _ hm

lemma sum_range_map_getD (v : Vec) :
    ((List.range v.length).map fun i => v.getD i 0).sum = v.sum := by
  induction v with
  | nil => simp
  | cons a tl ih =>
    rw [List.length_cons, List.range_succ_eq_map, List.map_cons, List.map_map]
    simp only [List.sum_cons]
    have : ((List.range tl.length).map ((fun i => (a :: tl).getD i 0) ∘ Nat.succ))
        = (List.range tl.length).map fun i => tl.getD i 0 := by
      apply List.map_congr_left
      intro i _
      rfl
    rw [this, ih]
    rfl

lemma sum_swap_range (rows : Mat) (K : ℕ) :
    ((List.range K).map fun i => (rows.map fun r => r.getD i 0).sum).sum =
      (rows.map fun r => ((List.range K).map fun i => r.getD i 0).sum).sum := by
  induction rows with
  | nil => simp
  | cons r tl ih =>
    simp only [List.map_cons, List.sum_cons]
    rw [← ih, sum_map_add (List.range K) (fun i => r.getD i 0)
      (fun i => (tl.map fun rr => rr.getD i 0).sum)]

lemma zipWith_add_nonneg (u v : Vec) (hu : ∀ a ∈ u, 0 ≤ a) (hv : ∀ b ∈ v, 0 ≤ b) :
    ∀ y ∈ List.zipWith (fun a b => a + b) u v, 0 ≤ y := by
  induction u generalizing v with
  | nil => intro y hy; simp at hy
  | cons a tl ih =>
    intro y hy
    cases v with
    | nil => simp at hy
    | cons b vt =>
      simp only [List.zipWith_cons_cons, List.mem_cons] at hy
      rcases hy with rfl | hy
      · exact add_nonneg (hu a (by simp)) (hv b (by simp))
      · exact ih vt (fun q hq => hu q (List.mem_cons_of_mem _ hq))
          (fun q hq => hv q (List.mem_cons_of_mem _ hq)) y hy

lemma cols_cons (r : Vec) (tl : Mat) : cols (r :: tl) = r.length := rfl

lemma pop_length (m : GMM) (l : Mat) : (m.pop l).length = cols (normRows l) := by
  simp [GMM.pop, csum]

/-- The weights assembled by _Mstep, extracted from the record update. -/
lemma Mstep_weights (env : Env) (m : GMM) (x like : Mat) :
    (m._Mstep env x like).weights =
      (List.zipWith (fun a b => a + b) m.prior_weights (m.pop like)).map
        (· / (List.zipWith (fun a b => a + b) m.prior_weights (m.pop like)).sum) := by
  simp only [GMM._Mstep]

lemma getD_map_div (v : Vec) (c : ℝ) (i : ℕ) :
    (v.map (· / c)).getD i 0 = v.getD i 0 / c := by
  induction v generalizing i with
  | nil => simp
  | cons a tl ih =>
    cases i with
    | zero => rfl
    | succ j => simpa [List.getD] using ih j

lemma getD_map_range {α : Type} (K i : ℕ) (f : ℕ → α) (d : α) :
    ((List.range K).map f).getD i d = if i < K then f i else d := by
  by_cases h : i < K
  · rw [List.getD_eq_getElem _ d (by simpa using h)]
    simp [h]
  · rw [List.getD_eq_default _ d (by simpa using Nat.le_of_not_lt h)]
    simp [h]

lemma cols_normRows (l : Mat) : cols (normRows l) = cols l := by
  cases l with
  | nil => rfl
  | cons r tl => simp [normRows_eq, cols]

lemma pop_getD (m : GMM) (like : Mat) (i : ℕ) (hi : i < cols like) :
    (m.pop like).getD i 0 =
      (like.map fun lr => lr.getD i 0 / max lr.sum tiny).sum := by
  unfold GMM.pop csum
  rw [cols_normRows, getD_map_range, if_pos hi, normRows_eq, List.map_map]
  congr 1
  apply List.map_congr_left
  intro r _
  simp only [Function.comp]
  rw [getD_map_div, max_comm]

lemma mem_zipWith {α β γ : Type} (f : α → β → γ) :
    ∀ (l : List α) (l' : List β) (c : γ), c ∈ List.zipWith f l l' →
      ∃ a b, a ∈ l ∧ b ∈ l' ∧ c = f a b := by
  intro l
  induction l with
  | nil => intro l' c hc; simp at hc
  | cons a tl ih =>
    intro l' c hc
    cases l' with
    | nil => simp at hc
    | cons b lt =>
      simp only [List.zipWith_cons_cons, List.mem_cons] at hc
      rcases hc with rfl | hc
      · exact ⟨a, b, by simp, by simp, rfl⟩
      · obtain ⟨p, q, hp, hq, rfl⟩ := ih lt c hc
        exact ⟨p, q, List.mem_cons_of_mem _ hp, List.mem_cons_of_mem _ hq, rfl⟩

lemma sum_zero_of_nonneg (l : List ℝ) (h0 : l.sum = 0) (hnn : ∀ a ∈ l, 0 ≤ a) :
    ∀ a ∈ l, a = 0 := by
  induction l with
  | nil => simp
  | cons a tl ih =>
    have ha : 0 ≤ a := hnn a (by simp)
    have htl : 0 ≤ tl.sum := List.sum_nonneg fun q hq => hnn q (List.mem_cons_of_mem _ hq)
    simp only [List.sum_cons] at h0
    have ha0 : a = 0 := by linarith
    have htl0 : tl.sum = 0 := by linarith
    intro q hq
    rcases List.mem_cons.mp hq with rfl | hq
    · exact ha0
    · exact ih htl0 (fun p hp => hnn p (List.mem_cons_of_mem _ hp)) q hq

lemma len_tdot (a b : Mat) : (tdot a b).length = cols a := by
  simp [tdot]

/-- The means assembled by _Mstep, extracted from the record update. -/
lemma Mstep_means (env : Env) (m : GMM) (x like : Mat) :
    (m._Mstep env x like).means =
      List.zipWith (fun row s => row.map (· / s))
        (List.zipWith (fun row pm => List.zipWith (fun a b => a + b) row
          (pm.map (m.prior_shrinkage * ·))) (tdot (normRows like) x) m.prior_means)
        ((m.pop like).map (· + m.prior_shrinkage)) := by
  simp only [GMM._Mstep]

lemma zipWith_congr_fun {α β γ : Type} (f g : α → β → γ) (h : ∀ a b, f a b = g a b) :
    ∀ (l : List α) (l' : List β), List.zipWith f l l' = List.zipWith g l l' := by
  intro l
  induction l with
  | nil => intro l'; simp
  | cons a tl ih =>
    intro l'
    cases l' with
    | nil => simp
    | cons b lt => simp only [List.zipWith_cons_cons, h, ih lt]

/-- Row i of the means produced by _Mstep, in terms of the raw
likelihood matrix. -/
lemma Mstep_means_row (env : Env) (m : GMM) (x like : Mat) (i : ℕ)
    (hi : i < cols like) (hpm_len : m.prior_means.length = cols like) :
    (m._Mstep env x like).means.getD i [] =
      (List.zipWith (fun a b => a + b)
        ((List.range (cols x)).map fun d =>
          (List.zipWith (fun lr xr => lr.getD i 0 / max lr.sum tiny *
            xr.getD d 0) like x).sum)
        ((m.prior_means.getD i []).map (m.prior_shrinkage * ·))).map
        (· / ((like.map fun lr => lr.getD i 0 / max lr.sum tiny).sum +
          m.prior_shrinkage)) := by
  have hlen_td : (tdot (normRows like) x).length = cols like := by
    rw [len_tdot, cols_normRows]
  have hlen_pop : (m.pop like).length = cols like := by
    rw [pop_length, cols_normRows]
  have hlen_mnum : (List.zipWith (fun row pm => List.zipWith (fun a b => a + b) row
      (pm.map (m.prior_shrinkage * ·))) (tdot (normRows like) x)
      m.prior_means).length = cols like := by
    rw [List.length_zipWith, hlen_td, hpm_len, min_self]
  have hlen_shr : ((m.pop like).map (· + m.prior_shrinkage)).length = cols like := by
    rw [List.length_map, hlen_pop]
  have hi_m : i < ((m._Mstep env x like).means).length := by
    rw [Mstep_means, List.length_zipWith, hlen_mnum, hlen_shr, min_self]
    exact hi
  rw [Mstep_means] at hi_m ⊢
  rw [List.getD_eq_getElem _ [] hi_m, List.getElem_zipWith]
  have hrow : (tdot (normRows like) x)[i] =
      (List.range (cols x)).map fun d =>
        (List.zipWith (fun lr xr => lr.getD i 0 / max lr.sum tiny *
          xr.getD d 0) like x).sum := by
    unfold tdot
    rw [List.getElem_map, List.getElem_range]
    apply List.map_congr_left
    intro d _
    rw [normRows_eq, List.zipWith_map_left]
    congr 1
    apply zipWith_congr_fun
    intro lr xr
    rw [getD_map_div, max_comm]
  have hpm : m.prior_means[i] = m.prior_means.getD i [] :=
    (List.getD_eq_getElem _ [] (by rw [hpm_len]; exact hi)).symm
  have hshr : ((m.pop like).map (· + m.prior_shrinkage))[i] =
      (like.map fun lr => lr.getD i 0 / max lr.sum tiny).sum + m.prior_shrinkage := by
    rw [List.getElem_map]
    rw [← List.getD_eq_getElem _ 0 (by rw [hlen_pop]; exact hi)]
    rw [pop_getD m like i hi]
  rw [List.getElem_zipWith, hrow, hpm, hshr]

/-- Claim C6: the M-step mean update is the shrinkage blend
((nl.T x)[i] + priorMeans[i]*priorShrinkage) / (pop[i] + priorShrinkage)
with nl the row-normalized (tiny-floored) responsibilities, and a
component with pop[i] = 0 receives exactly the prior mean. -/
theorem claim_C6 (env : Env) (m : GMM) (x like : Mat)
    (hnn : ∀ r ∈ like, ∀ v ∈ r, 0 ≤ v)
    (hpm_len : m.prior_means.length = cols like)
    (hpm_rect : ∀ r ∈ m.prior_means, r.length = cols x)
    (hs : 0 < m.prior_shrinkage) :
    (∀ i, i < cols like → ∀ d, d < cols x →
      matGet (m._Mstep env x like).means i d =
        ((List.zipWith (fun lr xr => lr.getD i 0 / max lr.sum tiny *
          xr.getD d 0) like x).sum +
          matGet m.prior_means i d * m.prior_shrinkage) /
        ((like.map fun lr => lr.getD i 0 / max lr.sum tiny).sum +
          m.prior_shrinkage)) ∧
    (∀ i, i < cols like →
      (like.map fun lr => lr.getD i 0 / max lr.sum tiny).sum = 0 →
      (m._Mstep env x like).means.getD i [] = m.prior_means.getD i []) := by
  have htiny : (0 : ℝ) < tiny := by norm_num [tiny]
  constructor
  · intro i hi d hd
    unfold matGet
    rw [Mstep_means_row env m x like i hi hpm_len]
    rw [getD_map_div]
    have hpmi : (m.prior_means.getD i []).length = cols x := by
      apply hpm_rect
      rw [List.getD_eq_getElem _ [] (by rw [hpm_len]; exact hi)]
      exact List.getElem_mem _
    have hd1 : d < ((List.range (cols x)).map fun e =>
        (List.zipWith (fun lr xr => lr.getD i 0 / max lr.sum tiny *
          xr.getD e 0) like x).sum).length := by
      simpa using hd
    have hd2 : d < ((m.prior_means.getD i []).map (m.prior_shrinkage * ·)).length := by
      rw [List.length_map, hpmi]
      exact hd
    rw [List.getD_eq_getElem _ 0 (by rw [List.length_zipWith]; omega),
      List.getElem_zipWith, List.getElem_map, List.getElem_range, List.getElem_map]
    rw [← List.getD_eq_getElem (m.prior_means.getD i []) 0 (by rw [hpmi]; exact hd)]
    ring
  · intro i hi hzero
    rw [Mstep_means_row env m x like i hi hpm_len, hzero]
    have hpmi : (m.prior_means.getD i []).length = cols x := by
      apply hpm_rect
      rw [List.getD_eq_getElem _ [] (by rw [hpm_len]; exact hi)]
      exact List.getElem_mem _
    have hterms : ∀ a ∈ (like.map fun lr => lr.getD i 0 / max lr.sum tiny), a = 0 := by
      apply sum_zero_of_nonneg _ hzero
      intro a ha
      simp only [List.mem_map] at ha
      obtain ⟨lr, hlr, rfl⟩ := ha
      exact div_nonneg (getD_nonneg lr i (hnn lr hlr))
        (le_of_lt (lt_max_of_lt_right htiny))
    have hcoef : ∀ lr ∈ like, lr.getD i 0 / max lr.sum tiny = 0 := fun lr hlr =>
      hterms _ (List.mem_map_of_mem _ hlr)
    apply List.ext_getElem
    · rw [List.length_map, List.length_zipWith, List.length_map, List.length_map,
        List.length_range, hpmi, min_self]
    · intro e h1 h2
      rw [List.getElem_map, List.getElem_zipWith, List.getElem_map, List.getElem_range,
        List.getElem_map]
      have hzrow : (List.zipWith (fun lr xr => lr.getD i 0 / max lr.sum tiny *
          xr.getD e 0) like x).sum = 0 := by
        apply List.sum_eq_zero
        intro q hq
        obtain ⟨lr, xr, hlr, _, rfl⟩ := mem_zipWith _ like x q hq
        rw [hcoef lr hlr, zero_mul]
      rw [hzrow]
      simp only [zero_add]
      exact mul_div_cancel_left₀ _ (ne_of_gt hs)

/-- Claim C6 witness: a 1-d model with prior mean 5 and shrinkage 0.01 on
the all-zero responsibility row, whose component mean becomes the prior
mean. -/
theorem claim_C6_w :
    ((∀ r ∈ ([[0]] : Mat), ∀ v ∈ r, 0 ≤ v) ∧ (0 : ℝ) < mW6.prior_shrinkage) ∧
    (∀ i, i < cols ([[0]] : Mat) →
      (([[0]] : Mat).map fun lr => lr.getD i 0 / max lr.sum tiny).sum = 0 →
      (mW6._Mstep envW [[7]] [[0]]).means.getD i [] =
        mW6.prior_means.getD i []) := by
  have h := claim_C6 envW mW6 [[7]] [[0]] (by norm_num)
    (by simp [mW6, cols]) (by simp [mW6, cols]) (by norm_num [mW6])
  exact ⟨⟨by norm_num, by norm_num [mW6]⟩, h.2⟩

/-- Claim C10: for data of the model's dimensionality, estimate with
niter = 0 never executes the E/M loop body, so the final `return
self.bic(l)` reads the undefined name l and the call fails; with
niter >= 1 it returns an evidence value. -/
theorem claim_C10 (env : Env) (m : GMM) (x : Mat) (delta : ℝ)
    (hx : cols x = m.dim) :
    m.estimate env x 0 delta = .error .nameUndefined ∧
    ∀ niter, 1 ≤ niter → ∃ r, m.estimate env x niter delta = .ok r := by
  have hcx : m.check_x x = .ok x := by simp [GMM.check_x, hx]
  constructor
  · rw [estimate_run env m x 0 delta hcx]
    rfl
  · intro niter hn
    have hs := estLoop_isSome env x delta niter m none none hn
    obtain ⟨l, hl⟩ := Option.isSome_iff_exists.mp hs
    refine ⟨((estLoop env x delta niter m none none).1,
      (estLoop env x delta niter m none none).1.bic l), ?_⟩
    rw [estimate_run env m x niter delta hcx, hl]


/-- Claim C3: after an M-step on a responsibility matrix (non-negative
entries, positive row sums, rectangular, with prior weights of matching
length and non-negative), the updated weights are non-negative and sum
exactly to 1 in exact real arithmetic. -/
theorem claim_C3 (env : Env) (m : GMM) (x like : Mat)
    (hne : like ≠ [])
    (hrect : ∀ r ∈ like, r.length = cols like)
    (hnn : ∀ r ∈ like, ∀ v ∈ r, 0 ≤ v)
    (hrow : ∀ r ∈ like, 0 < r.sum)
    (hpw : m.prior_weights.length = cols like)
    (hpwnn : ∀ w ∈ m.prior_weights, 0 ≤ w) :
    ((m._Mstep env x like).weights).sum = 1 ∧
    ∀ w ∈ (m._Mstep env x like).weights, 0 ≤ w := by
  have htiny : (0 : ℝ) < tiny := by norm_num [tiny]
  -- the normalized responsibilities, rowwise
  have hnr : normRows like = like.map fun r => r.map (· / max tiny r.sum) :=
    normRows_eq like
  -- pop entries are non-negative
  have hpop_nn : ∀ p ∈ m.pop like, 0 ≤ p := by
    intro p hp
    simp only [GMM.pop, csum, hnr, List.mem_map] at hp
    obtain ⟨i, _, rfl⟩ := hp
    apply List.sum_nonneg
    intro a ha
    simp only [List.map_map, List.mem_map] at ha
    obtain ⟨r, hr, rfl⟩ := ha
    apply getD_nonneg
    intro q hq
    simp only [Function.comp, List.mem_map] at hq
    obtain ⟨v, hv, rfl⟩ := hq
    exact div_nonneg (hnn r hr v hv) (le_of_lt (lt_max_of_lt_left htiny))
  -- the sum of pop is positive
  have hpop_sum : 0 < (m.pop like).sum := by
    have hK : cols (normRows like) = cols like := by
      cases like with
      | nil => exact absurd rfl hne
      | cons r tl => simp [hnr, cols_cons]
    rw [GMM.pop, csum, hK]
    rw [sum_swap_range (normRows like) (cols like)]
    rw [hnr, List.map_map]
    apply List.sum_pos
    · intro a ha
      simp only [List.mem_map, Function.comp] at ha
      obtain ⟨r, hr, rfl⟩ := ha
      have hlen : (r.map (· / max tiny r.sum)).length = cols like := by
        simp [hrect r hr]
      have := sum_range_map_getD (r.map (· / max tiny r.sum))
      rw [hlen] at this
      rw [this, sum_div_vec r (max tiny r.sum)]
      exact div_pos (hrow r hr) (lt_max_of_lt_left htiny)
    · simpa using hne
  -- the un-normalized weights and their sum
  have hlen : m.prior_weights.length = (m.pop like).length := by
    rw [pop_length]
    rw [hpw]
    cases like with
    | nil => exact absurd rfl hne
    | cons r tl => simp [hnr, cols_cons]
  have hsum : (List.zipWith (fun a b => a + b) m.prior_weights (m.pop like)).sum =
      m.prior_weights.sum + (m.pop like).sum :=
    sum_zipWith_add _ _ hlen
  have hS : 0 < (List.zipWith (fun a b => a + b) m.prior_weights (m.pop like)).sum := by
    rw [hsum]
    have := List.sum_nonneg hpwnn
    linarith
  constructor
  · rw [Mstep_weights]
    rw [sum_div_vec _ _]
    exact div_self (ne_of_gt hS)
  · rw [Mstep_weights]
    intro w hw
    simp only [List.mem_map] at hw
    obtain ⟨a, ha, rfl⟩ := hw
    exact div_nonneg (zipWith_add_nonneg _ _ hpwnn hpop_nn a ha) (le_of_lt hS)

/-- Claim C3 witness: a 1-component model with prior weight 1/2 on the
single-row responsibility matrix [[2]]. -/
theorem claim_C3_w :
    (([[2]] : Mat) ≠ [] ∧ (∀ r ∈ ([[2]] : Mat), r.length = cols [[2]]) ∧
      (∀ r ∈ ([[2]] : Mat), ∀ v ∈ r, 0 ≤ v) ∧ (∀ r ∈ ([[2]] : Mat), 0 < r.sum)) ∧
    ((({ GMM.init 1 1 .full with prior_weights := [1/2] } : GMM)._Mstep envW
        [[3]] [[2]]).weights).sum = 1 := by
  have h := claim_C3 envW { GMM.init 1 1 .full with prior_weights := [1/2] }
    [[3]] [[2]] (by simp) (by simp [cols]) (by norm_num)
    (by norm_num) (by simp [cols]) (by norm_num)
  exact ⟨⟨by simp, by simp [cols], by norm_num, by norm_num⟩, h.1⟩

/-- Claim C10 witness: the theorem at a 1-d model on a single sample. -/
theorem claim_C10_w :
    cols [[(0 : ℝ)]] = (GMM.init 1 1 .full).dim ∧
    ((GMM.init 1 1 .full).estimate envW [[(0 : ℝ)]] 0 1 = .error .nameUndefined ∧
      ∀ niter, 1 ≤ niter →
        ∃ r, (GMM.init 1 1 .full).estimate envW [[(0 : ℝ)]] niter 1 = .ok r) :=
  ⟨rfl, claim_C10 envW (GMM.init 1 1 .full) [[(0 : ℝ)]] 1 rfl⟩

lemma zipWith_self_map {α γ : Type} (f : α → α → γ) (l : List α) :
    List.zipWith f l l = l.map fun a => f a a := by
  induction l with
  | nil => rfl
  | cons a tl ih => simp only [List.zipWith_cons_cons, List.map_cons, ih]

lemma getD_map_zero (f : ℝ → ℝ) (hf : f 0 = 0) (v : Vec) (i : ℕ) :
    (v.map f).getD i 0 = f (v.getD i 0) := by
  induction v generalizing i with
  | nil => simp [hf]
  | cons a tl ih =>
    cases i with
    | zero => rfl
    | succ j => simpa [List.getD] using ih j

lemma getD_vsub (u v : Vec) (i : ℕ) (hu : i < u.length) (hv : i < v.length) :
    (vsub u v).getD i 0 = u.getD i 0 - v.getD i 0 := by
  unfold vsub
  rw [List.getD_eq_getElem _ 0 (by rw [List.length_zipWith]; omega),
    List.getElem_zipWith, List.getD_eq_getElem _ 0 hu, List.getD_eq_getElem _ 0 hv]

lemma cols_of_rect (x : Mat) (dim : ℕ) (hne : x ≠ []) (hrect : ∀ r ∈ x, r.length = dim) :
    cols x = dim := by
  cases x with
  | nil => exact absurd rfl hne
  | cons r t => simpa [cols] using hrect r (by simp)

lemma mx_length (x : Mat) : ((csum x).map (· / (x.length : ℝ))).length = cols x := by
  simp [csum]

lemma cols_dx (x : Mat) (dim : ℕ) (hne : x ≠ []) (hrect : ∀ r ∈ x, r.length = dim) :
    cols (x.map fun r => vsub r ((csum x).map (· / (x.length : ℝ)))) = dim := by
  cases x with
  | nil => exact absurd rfl hne
  | cons r t =>
    have hr : r.length = dim := hrect r (by simp)
    have hmx : ((csum (r :: t)).map (· / ((r :: t).length : ℝ))).length = dim := by
      rw [mx_length]
      exact cols_of_rect _ dim hne hrect
    simp only [List.map_cons, cols_cons, vsub, List.length_zipWith, hr, hmx, min_self]

lemma length_empCov (x : Mat) (dim : ℕ) (hne : x ≠ [])
    (hrect : ∀ r ∈ x, r.length = dim) : (empCov x).length = dim := by
  unfold empCov
  simp only [List.length_map, len_tdot]
  exact cols_dx x dim hne hrect

lemma empCov_diag (x : Mat) (dim : ℕ) (hne : x ≠ [])
    (hrect : ∀ r ∈ x, r.length = dim) (i : ℕ) (hi : i < dim) :
    matGet (empCov x) i i =
      (x.map fun r => (r.getD i 0 -
        (x.map fun rr => rr.getD i 0).sum / (x.length : ℝ)) ^ 2).sum /
        (x.length : ℝ) := by
  have hcols := cols_of_rect x dim hne hrect
  have hmx : ((csum x).map (· / (x.length : ℝ))).length = dim := by
    rw [mx_length, hcols]
  have hcdx := cols_dx x dim hne hrect
  have hmean : ∀ j, j < dim →
      ((csum x).map (· / (x.length : ℝ))).getD j 0 =
        (x.map fun rr => rr.getD j 0).sum / (x.length : ℝ) := by
    intro j hj
    rw [getD_map_zero (fun v => v / (x.length : ℝ)) (zero_div _)]
    unfold csum
    rw [hcols, getD_map_range, if_pos hj]
  unfold empCov matGet
  have hlen_td : (tdot (x.map fun r => vsub r ((csum x).map (· / (x.length : ℝ))))
      (x.map fun r => vsub r ((csum x).map (· / (x.length : ℝ))))).length = dim := by
    rw [len_tdot, hcdx]
  rw [List.getD_eq_getElem _ [] (by simpa [hlen_td] using hi), List.getElem_map,
    getD_map_zero (fun v => v / (x.length : ℝ)) (zero_div _)]
  unfold tdot
  rw [List.getElem_map, List.getElem_range, getD_map_range, hcdx, if_pos hi]
  rw [zipWith_self_map, List.map_map]
  congr 1
  congr 1
  apply List.map_congr_left
  intro r hr
  simp only [Function.comp]
  rw [getD_vsub _ _ i (by rw [hrect r hr]; exact hi) (by rw [hmx]; exact hi)]
  rw [hmean i hi, pow_two]

lemma scale_full_eq (x : Mat) (dim : ℕ) (hne : x ≠ [])
    (hrect : ∀ r ∈ x, r.length = dim) (c : ℝ) :
    (diagMat ((diagVec (empCov x)).map (1 / ·))).map (fun r => r.map (· * c)) =
      (List.range dim).map fun a => (List.range dim).map fun b =>
        (if a = b then
          1 / ((x.map fun r => (r.getD a 0 -
            (x.map fun rr => rr.getD a 0).sum / (x.length : ℝ)) ^ 2).sum /
            (x.length : ℝ))
        else 0) * c := by
  have hlen : ((diagVec (empCov x)).map (1 / ·)).length = dim := by
    simp [diagVec, length_empCov x dim hne hrect]
  unfold diagMat
  rw [hlen, List.map_map]
  apply List.map_congr_left
  intro a ha
  simp only [Function.comp, List.map_map]
  apply List.map_congr_left
  intro b _
  simp only [Function.comp]
  congr 1
  by_cases hab : a = b
  · rw [if_pos hab, if_pos hab]
    subst hab
    have hia : a < dim := List.mem_range.mp ha
    rw [getD_map_zero (fun t => 1 / t) (by simp) _ a]
    unfold diagVec
    rw [length_empCov x dim hne hrect, getD_map_range, if_pos hia]
    rw [empCov_diag x dim hne hrect a hia]
  · rw [if_neg hab, if_neg hab]

lemma scale_diag_eq (x : Mat) (dim : ℕ) (hne : x ≠ [])
    (hrect : ∀ r ∈ x, r.length = dim) (c : ℝ) :
    ((diagVec (empCov x)).map (1 / ·)).map (· * c) =
      (List.range dim).map fun a =>
        1 / ((x.map fun r => (r.getD a 0 -
          (x.map fun rr => rr.getD a 0).sum / (x.length : ℝ)) ^ 2).sum /
          (x.length : ℝ)) * c := by
  unfold diagVec
  rw [length_empCov x dim hne hrect, List.map_map, List.map_map]
  apply List.map_congr_left
  intro a ha
  simp only [Function.comp]
  rw [empCov_diag x dim hne hrect a (List.mem_range.mp ha)]

/-- Claim C5: guess_regularizing installs the Fraley-Raftery prior:
prior means all equal to the empirical mean, uniform 1/k prior weights,
shrinkage 0.01, dim+2 degrees of freedom, and the inflated diagonal
precision diag(1/diag(vx)) * exp((2/dim) ln k) replicated k times (the
vector form for Diagonal), and the model passes the shape check
immediately afterwards (the call returns normally). -/
theorem claim_C5 (k dim : ℕ) (pt : PrecType) (x : Mat)
    (hk : 1 ≤ k) (hd : 1 ≤ dim) (hne : x ≠ [])
    (hrect : ∀ r ∈ x, r.length = dim)
    (hpt : pt = .full ∨ pt = .diag) :
    ∃ m', (GMM.init k dim pt).guess_regularizing x true = .ok m' ∧
      m'.prior_means = List.replicate k ((List.range dim).map fun d =>
        (x.map fun r => r.getD d 0).sum / (x.length : ℝ)) ∧
      m'.prior_weights = List.replicate k (1 / (k : ℝ)) ∧
      m'.prior_shrinkage = 0.01 ∧
      m'.prior_dof = (dim : ℝ) + 2 ∧
      (pt = .full → m'.prior_scale = .full (List.replicate k
        ((List.range dim).map fun a => (List.range dim).map fun b =>
          (if a = b then
            1 / ((x.map fun r => (r.getD a 0 -
              (x.map fun rr => rr.getD a 0).sum / (x.length : ℝ)) ^ 2).sum /
              (x.length : ℝ))
          else 0) * Real.exp (2 / (dim : ℝ) * Real.log (k : ℝ))))) ∧
      (pt = .diag → m'.prior_scale = .diag (List.replicate k
        ((List.range dim).map fun a =>
          1 / ((x.map fun r => (r.getD a 0 -
            (x.map fun rr => rr.getD a 0).sum / (x.length : ℝ)) ^ 2).sum /
            (x.length : ℝ)) *
          Real.exp (2 / (dim : ℝ) * Real.log (k : ℝ))))) := by
  have hcols := cols_of_rect x dim hne hrect
  have hmeans : (guessed (GMM.init k dim pt) x).prior_means =
      List.replicate k ((List.range dim).map fun d =>
        (x.map fun r => r.getD d 0).sum / (x.length : ℝ)) := by
    simp only [guessed, GMM.init]
    congr 1
    unfold csum
    rw [hcols, List.map_map]
    rfl
  rcases hpt with rfl | rfl
  · refine ⟨guessed (GMM.init k dim .full) x, ?_, hmeans, ?_, ?_, ?_, ?_, ?_⟩
    · have hchk : (guessed (GMM.init k dim .full) x).check = .ok () := by
        simp [GMM.check, guessed, GMM.init, Precs.shape0, Precs.shape1,
          cols_replicate _ _ _ hk, head?_replicate _ _ hk, length_idMat,
          cols_idMat _ hd]
      simp [GMM.guess_regularizing, hchk, Except.map]
    · simp [guessed, GMM.init]
    · simp only [guessed, GMM.init]
    · simp only [guessed, GMM.init]
    · intro _
      simp only [guessed, GMM.init]
      rw [scale_full_eq x dim hne hrect]
    · intro h
      exact absurd h (by simp)
  · refine ⟨guessed (GMM.init k dim .diag) x, ?_, hmeans, ?_, ?_, ?_, ?_, ?_⟩
    · have hchk : (guessed (GMM.init k dim .diag) x).check = .ok () := by
        simp [GMM.check, guessed, GMM.init, Precs.shape0, Precs.shape1,
          cols_replicate _ _ _ hk, head?_replicate _ _ hk]
      simp [GMM.guess_regularizing, hchk, Except.map]
    · simp [guessed, GMM.init]
    · simp only [guessed, GMM.init]
    · simp only [guessed, GMM.init]
    · intro h
      exact absurd h (by simp)
    · intro _
      simp only [guessed, GMM.init]
      rw [scale_diag_eq x dim hne hrect]

/-- Claim C5 witness: the prior builder on a single 1-d sample. -/
theorem claim_C5_w :
    (1 ≤ 1 ∧ ([[2]] : Mat) ≠ [] ∧ (∀ r ∈ ([[2]] : Mat), r.length = 1)) ∧
    ∃ m', (GMM.init 1 1 .full).guess_regularizing [[2]] true = .ok m' ∧
      m'.prior_means = List.replicate 1 ((List.range 1).map fun d =>
        (([[2]] : Mat).map fun r => r.getD d 0).sum / (([[2]] : Mat).length : ℝ)) := by
  have h := claim_C5 1 1 .full [[2]] (Nat.le_refl 1) (Nat.le_refl 1)
    (by simp) (by simp) (Or.inl rfl)
  obtain ⟨m', hrun, hm, _⟩ := h
  exact ⟨⟨Nat.le_refl 1, by simp, by simp⟩, m', hrun, hm⟩

lemma stopCond_iff (env : Env) (x : Mat) (m : GMM) (delta : ℝ) (t : ℕ) :
    stopCond (allAt env x m t)
      (if t = 0 then none else some (allAt env x m (t - 1))) delta ↔
      stopsAt env x m delta t := by
  cases t with
  | zero => simp [stopCond, stopsAt]
  | succ s => simp [stopCond, stopsAt]

lemma estLoop_char (env : Env) (x : Mat) (m : GMM) (delta : ℝ) :
    ∀ (f t : ℕ), 1 ≤ f → ∀ lO : Option Mat,
      ((∀ i, t ≤ i → i < t + f → ¬ stopsAt env x m delta i) →
        estLoop env x delta f (emIter env x m t)
          (if t = 0 then none else some (allAt env x m (t - 1))) lO =
          (emIter env x m (t + f), some (likAt env x m (t + f - 1)))) ∧
      (∀ j, t ≤ j → j < t + f → stopsAt env x m delta j →
        (∀ i, t ≤ i → i < j → ¬ stopsAt env x m delta i) →
        estLoop env x delta f (emIter env x m t)
          (if t = 0 then none else some (allAt env x m (t - 1))) lO =
          (emIter env x m j, some (likAt env x m j))) := by
  intro f
  induction f with
  | zero => intro t hf; omega
  | succ f' ih =>
    intro t _ lO
    have hstep : estLoop env x delta (f' + 1) (emIter env x m t)
        (if t = 0 then none else some (allAt env x m (t - 1))) lO =
        if stopCond (allAt env x m t)
          (if t = 0 then none else some (allAt env x m (t - 1))) delta
        then (emIter env x m t, some (likAt env x m t))
        else estLoop env x delta f' (emIter env x m (t + 1))
          (some (allAt env x m t)) (some (likAt env x m t)) := rfl
    constructor
    · intro hno
      have hnot : ¬ stopsAt env x m delta t := hno t le_rfl (by omega)
      rw [hstep, if_neg (by rw [stopCond_iff]; exact hnot)]
      cases f' with
      | zero => simp [estLoop, likAt]
      | succ f'' =>
        have hmain := (ih (t + 1) (by omega) (some (likAt env x m t))).1
        have hpre : (if t + 1 = 0 then none
            else some (allAt env x m (t + 1 - 1))) = some (allAt env x m t) := by
          simp
        rw [hpre] at hmain
        have hres := hmain (fun i h1 h2 => hno i (by omega) (by omega))
        rw [hres]
        have h1 : t + 1 + (f'' + 1) = t + (f'' + 1 + 1) := by omega
        rw [h1]
    · intro j hjt hjf hstop hfirst
      by_cases hj : j = t
      · subst hj
        rw [hstep, if_pos (by rw [stopCond_iff]; exact hstop)]
      · have hjt1 : t + 1 ≤ j := by omega
        have hnot : ¬ stopsAt env x m delta t := hfirst t le_rfl (by omega)
        rw [hstep, if_neg (by rw [stopCond_iff]; exact hnot)]
        cases f' with
        | zero => omega
        | succ f'' =>
          have hmain := (ih (t + 1) (by omega) (some (likAt env x m t))).2
          have hpre : (if t + 1 = 0 then none
              else some (allAt env x m (t + 1 - 1))) = some (allAt env x m t) := by
            simp
          rw [hpre] at hmain
          exact hmain j hjt1 (by omega) hstop (fun i h1 h2 => hfirst i (by omega) h2)

/-- Claim C2: estimate alternates E-step then M-step; at iteration t it
computes the average log-likelihood of the just-computed E-step matrix
and stops before the M-step as soon as it falls short of the previous
value plus delta (never at t = 0, where the previous value is
-infinity); otherwise it runs the M-step; after at most niter
iterations it stops, and the returned value is always the bic of the
likelihood matrix of the last executed E-step (the result model differs
from the bic model only when the loop exhausted niter, and bic reads
none of the updated parameters). -/
theorem claim_C2 (env : Env) (m : GMM) (x : Mat) (niter : ℕ) (delta : ℝ)
    (hx : cols x = m.dim) (hn : 1 ≤ niter) :
    ((∀ i, 1 ≤ i → i < niter → ¬ stopsAt env x m delta i) →
      m.estimate env x niter delta = .ok (emIter env x m niter,
        (emIter env x m niter).bic (likAt env x m (niter - 1)))) ∧
    (∀ j, 1 ≤ j → j < niter → stopsAt env x m delta j →
      (∀ i, 1 ≤ i → i < j → ¬ stopsAt env x m delta i) →
      m.estimate env x niter delta = .ok (emIter env x m j,
        (emIter env x m j).bic (likAt env x m j))) := by
  have hcx : m.check_x x = .ok x := by simp [GMM.check_x, hx]
  have hchar := estLoop_char env x m delta niter 0 hn (none : Option Mat)
  constructor
  · intro hno
    have hno' : ∀ i, 0 ≤ i → i < 0 + niter → ¬ stopsAt env x m delta i := by
      intro i _ h2
      cases i with
      | zero => intro hc; exact absurd hc.1 (by omega)
      | succ s => exact hno (s + 1) (by omega) (by omega)
    have hrun := hchar.1 hno'
    rw [estimate_run env m x niter delta hcx]
    have : estLoop env x delta niter m none none =
        (emIter env x m (0 + niter), some (likAt env x m (0 + niter - 1))) := hrun
    rw [this]
    simp
  · intro j hj hjn hstop hfirst
    have hfirst' : ∀ i, 0 ≤ i → i < j → ¬ stopsAt env x m delta i := by
      intro i _ h2
      cases i with
      | zero => intro hc; exact absurd hc.1 (by omega)
      | succ s => exact hfirst (s + 1) (by omega) h2
    have hrun := hchar.2 j (by omega) (by omega) hstop hfirst'
    rw [estimate_run env m x niter delta hcx]
    have : estLoop env x delta niter m none none =
        (emIter env x m j, some (likAt env x m j)) := hrun
    rw [this]

/-- Claim C2 witness: the characterization at a 1-d model, one sample,
niter = 1. -/
theorem claim_C2_w :
    (cols [[(0 : ℝ)]] = (GMM.init 1 1 .full).dim ∧ 1 ≤ 1) ∧
    ((∀ i, 1 ≤ i → i < 1 → ¬ stopsAt envW [[(0 : ℝ)]] (GMM.init 1 1 .full) 0 i) →
      (GMM.init 1 1 .full).estimate envW [[(0 : ℝ)]] 1 0 =
        .ok (emIter envW [[(0 : ℝ)]] (GMM.init 1 1 .full) 1,
          (emIter envW [[(0 : ℝ)]] (GMM.init 1 1 .full) 1).bic
            (likAt envW [[(0 : ℝ)]] (GMM.init 1 1 .full) 0))) :=
  ⟨⟨rfl, Nat.le_refl 1⟩,
    (claim_C2 envW (GMM.init 1 1 .full) [[(0 : ℝ)]] 1 0 rfl (Nat.le_refl 1)).1⟩

lemma exc_bind_error {α β : Type} (e : Err) (f : α → Except Err β) :
    ((Except.error e : Except Err α) >>= f) = Except.error e := rfl

lemma plugin_ok (m s g : GMM) :
    m.plugin s.means s.precisions s.weights = .ok g → g = setParams m s := by
  intro h
  unfold GMM.plugin at h
  change Except.map (fun _ => setParams m s) (setParams m s).check = Except.ok g at h
  rcases hc : (setParams m s).check with e | u
  · rw [hc] at h
    simp [Except.map] at h
  · rw [hc] at h
    simp only [Except.map, Except.ok.injEq] at h
    exact h.symm

lemma pureSelect_some {α : Type} (upd : α → GMM × ℝ → α)
    (hupd : ∀ a p q, upd (upd a p) q = upd a q) :
    ∀ (cs : List (GMM × ℝ)) (a : α) (B : ℝ),
      ((∀ j (hj : j < cs.length), (cs[j]).2 ≤ B) →
        pureSelect upd a (some B) cs = a) ∧
      (∀ i (hi : i < cs.length), B < (cs[i]).2 →
        (∀ j (hj : j < cs.length), (cs[j]).2 ≤ (cs[i]).2) →
        (∀ j (hj : j < i), (cs[j]).2 < (cs[i]).2) →
        pureSelect upd a (some B) cs = upd a (cs[i])) := by
  intro cs
  induction cs with
  | nil =>
    intro a B
    exact ⟨fun _ => rfl, fun i hi => absurd hi (by simp)⟩
  | cons p rest ih =>
    intro a B
    obtain ⟨s, b⟩ := p
    constructor
    · intro hall
      have hb : b ≤ B := by simpa using hall 0 (by simp)
      have hno : ¬ improves (some B) b := by
        simp only [improves, not_lt]
        exact hb
      simp only [pureSelect, if_neg hno]
      exact (ih a B).1 fun j hj => by simpa using hall (j + 1) (by simpa using hj)
    · intro i hi hB hmax hstrict
      cases i with
      | zero =>
        simp only [List.getElem_cons_zero] at hB ⊢
        have hyes : improves (some B) b := hB
        simp only [pureSelect, if_pos hyes]
        apply (ih (upd a (s, b)) b).1
        intro j hj
        simpa using hmax (j + 1) (by simpa using hj)
      | succ i' =>
        have hi' : i' < rest.length := by simpa using hi
        simp only [List.getElem_cons_succ] at hB ⊢
        by_cases hBb : B < b
        · have hyes : improves (some B) b := hBb
          simp only [pureSelect, if_pos hyes]
          rw [(ih (upd a (s, b)) b).2 i' hi'
            (by simpa using hstrict 0 (Nat.succ_pos i'))
            (fun j hj => by simpa using hmax (j + 1) (by simpa using hj))
            (fun j hj => by simpa using hstrict (j + 1) (by simpa using hj))]
          exact hupd a (s, b) _
        · have hno : ¬ improves (some B) b := hBb
          simp only [pureSelect, if_neg hno]
          exact (ih a B).2 i' hi' hB
            (fun j hj => by simpa using hmax (j + 1) (by simpa using hj))
            (fun j hj => by simpa using hstrict (j + 1) (by simpa using hj))

lemma pureSelect_none {α : Type} (upd : α → GMM × ℝ → α)
    (hupd : ∀ a p q, upd (upd a p) q = upd a q)
    (cs : List (GMM × ℝ)) (a : α) (hne : cs ≠ []) :
    ∃ i, ∃ hi : i < cs.length,
      pureSelect upd a none cs = upd a (cs[i]) ∧
      (∀ j (hj : j < cs.length), (cs[j]).2 ≤ (cs[i]).2) ∧
      (∀ j (hj : j < i), (cs[j]).2 < (cs[i]).2) := by
  have hlen : 0 < cs.length := List.length_pos.mpr hne
  have hP : ∃ t, ∃ ht : t < cs.length,
      ∀ l (hl : l < cs.length), (cs[l]).2 ≤ (cs[t]).2 := by
    obtain ⟨t, htmem, htmax⟩ := Finset.exists_max_image (Finset.range cs.length)
      (fun j => (cs.map Prod.snd).getD j 0) ⟨0, by simpa using hlen⟩
    have ht : t < cs.length := Finset.mem_range.mp htmem
    refine ⟨t, ht, fun l hl => ?_⟩
    have := htmax l (Finset.mem_range.mpr hl)
    rwa [List.getD_eq_getElem _ 0 (by simpa using hl),
      List.getD_eq_getElem _ 0 (by simpa using ht), List.getElem_map,
      List.getElem_map] at this
  classical
  have hkey : ∃ i, ∃ hi : i < cs.length,
      (∀ j (hj : j < cs.length), (cs[j]).2 ≤ (cs[i]).2) ∧
      (∀ j (hj : j < i), (cs[j]).2 < (cs[i]).2) := by
    obtain ⟨hi, hmax⟩ := Nat.find_spec hP
    refine ⟨Nat.find hP, hi, hmax, ?_⟩
    intro j hj
    have hnot := Nat.find_min hP hj
    have hjlen : j < cs.length := Nat.lt_trans hj hi
    rcases lt_or_ge (cs[j]).2 ((cs[Nat.find hP])).2 with h | h
    · exact h
    · exact absurd ⟨hjlen, fun l hl => le_trans (hmax l hl) h⟩ hnot
  obtain ⟨i, hi, hmax, hstrict⟩ := hkey
  refine ⟨i, hi, ?_, hmax, hstrict⟩
  revert hi hmax hstrict
  cases cs with
  | nil => intro hi; exact absurd hi (by simp)
  | cons p rest =>
    obtain ⟨s, b⟩ := p
    have hyes : improves none b := trivial
    cases i with
    | zero =>
      intro hi hmax _
      simp only [pureSelect, if_pos hyes, List.getElem_cons_zero]
      apply (pureSelect_some upd hupd rest (upd a (s, b)) b).1
      intro j hj
      simpa using hmax (j + 1) (by simpa using hj)
    | succ i' =>
      intro hi hmax hstrict
      have hi' : i' < rest.length := by simpa using hi
      simp only [pureSelect, if_pos hyes, List.getElem_cons_succ]
      rw [(pureSelect_some upd hupd rest (upd a (s, b)) b).2 i' hi'
        (by simpa using hstrict 0 (Nat.succ_pos i'))
        (fun j hj => by simpa using hmax (j + 1) (by simpa using hj))
        (fun j hj => by simpa using hstrict (j + 1) (by simpa using hj))]
      exact hupd a (s, b) _

lemma iae_char (env : Env) (x : Mat) (niter : ℕ) (delta : ℝ) :
    ∀ (n i : ℕ) (self : GMM) (bb : Option ℝ) (bg : GMM) (res : GMM × Option ℝ × GMM),
      iaeLoop env x niter delta n i self bb bg = .ok res →
      ∃ cs : List (GMM × ℝ), cs.length = n ∧
        CycleChain env x niter delta self i cs ∧
        res.2.2 = pureSelect iaeUpd bg bb cs := by
  intro n
  induction n with
  | zero =>
    intro i self bb bg res h
    simp only [iaeLoop] at h
    cases h
    exact ⟨[], rfl, CycleChain.nil self i, rfl⟩
  | succ n' ih =>
    intro i self bb bg res h
    simp only [iaeLoop] at h
    rcases hini : self.initialise env x (i + 1) with e | s
    · rw [hini, exc_bind_error] at h
      exact absurd h (by simp)
    rw [hini, exc_bind_ok] at h
    rcases hest : s.estimate env x niter delta with e | p
    · rw [hest, exc_bind_error] at h
      exact absurd h (by simp)
    rw [hest, exc_bind_ok] at h
    obtain ⟨s1, b1⟩ := p
    have hcyc : (do
        let s ← self.initialise env x (i + 1)
        s.estimate env x niter delta) = .ok (s1, b1) := by
      rw [hini, exc_bind_ok]
      exact hest
    by_cases himp : improves bb b1
    · rw [if_pos himp] at h
      rcases hplug : bg.plugin s1.means s1.precisions s1.weights with e | bg'
      · rw [hplug, exc_bind_error] at h
        exact absurd h (by simp)
      rw [hplug, exc_bind_ok] at h
      obtain ⟨cs', hlen, hchain, hsel⟩ := ih (i + 1) s1 (some b1) bg' res h
      refine ⟨(s1, b1) :: cs', by simp [hlen], ?_, ?_⟩
      · exact CycleChain.cons self i (s1, b1) cs' hcyc hchain
      · simp only [pureSelect, if_pos himp]
        rw [hsel, plugin_ok bg s1 bg' hplug]
        rfl
    · rw [if_neg himp] at h
      obtain ⟨cs', hlen, hchain, hsel⟩ := ih (i + 1) s1 bb bg res h
      refine ⟨(s1, b1) :: cs', by simp [hlen], ?_, ?_⟩
      · exact CycleChain.cons self i (s1, b1) cs' hcyc hchain
      · simp only [pureSelect, if_neg himp]
        exact hsel

lemma bfg_char (env : Env) (x : Mat) (pt : PrecType) (niter : ℕ) (delta : ℝ)
    (ninit : ℕ) :
    ∀ (ks : List ℕ) (st r : Option (ℝ × GMM)),
      bfgLoop env x pt niter delta ninit ks st = .ok r →
      ∃ cs : List (GMM × ℝ), ∃ hlen : cs.length = ks.length,
        (∀ j (hj : j < ks.length),
          fitK env x pt niter delta ninit (ks[j]) =
            .ok (cs[j])) ∧
        r = pureSelect bfgUpd st (optScore st) cs := by
  intro ks
  induction ks with
  | nil =>
    intro st r h
    simp only [bfgLoop] at h
    cases h
    exact ⟨[], rfl, fun j hj => absurd hj (by simp), rfl⟩
  | cons k rest ih =>
    intro st r h
    simp only [bfgLoop] at h
    rcases hfit : fitK env x pt niter delta ninit k with e | p
    · rw [hfit, exc_bind_error] at h
      exact absurd h (by simp)
    rw [hfit, exc_bind_ok] at h
    obtain ⟨s1, b1⟩ := p
    cases st with
    | none =>
      obtain ⟨cs', hlen, hfits, hsel⟩ := ih (some (b1, s1)) r h
      refine ⟨(s1, b1) :: cs', by simp [hlen], ?_, ?_⟩
      · intro j hj
        cases j with
        | zero => simpa using hfit
        | succ j' =>
          simp only [List.getElem_cons_succ]
          exact hfits j' (by simpa using hj)
      · have hyes : improves (optScore none) b1 := trivial
        simp only [pureSelect, if_pos hyes]
        exact hsel
    | some q =>
      obtain ⟨bb, bgm⟩ := q
      have h' : (if bb < b1 then
          bfgLoop env x pt niter delta ninit rest (some (b1, s1))
          else bfgLoop env x pt niter delta ninit rest (some (bb, bgm))) =
          Except.ok r := h
      by_cases hlt : bb < b1
      · rw [if_pos hlt] at h'
        obtain ⟨cs', hlen, hfits, hsel⟩ := ih (some (b1, s1)) r h'
        refine ⟨(s1, b1) :: cs', by simp [hlen], ?_, ?_⟩
        · intro j hj
          cases j with
          | zero => simpa using hfit
          | succ j' =>
            simp only [List.getElem_cons_succ]
            exact hfits j' (by simpa using hj)
        · have hyes : improves (optScore (some (bb, bgm))) b1 := hlt
          simp only [pureSelect, if_pos hyes]
          exact hsel
      · rw [if_neg hlt] at h'
        obtain ⟨cs', hlen, hfits, hsel⟩ := ih (some (bb, bgm)) r h'
        refine ⟨(s1, b1) :: cs', by simp [hlen], ?_, ?_⟩
        · intro j hj
          cases j with
          | zero => simpa using hfit
          | succ j' =>
            simp only [List.getElem_cons_succ]
            exact hfits j' (by simpa using hj)
        · have hno : ¬ improves (optScore (some (bb, bgm))) b1 := hlt
          simp only [pureSelect, if_neg hno]
          exact hsel

/-- Claim C7: both best-model selections are strictly-greater-than
contests that keep the first-seen candidate on ties.  A successful
initialize_and_estimate run is some chain of ninit initialise/estimate
cycles, and the returned model is the fresh holder carrying the
parameters of the first cycle whose bic attains the maximum (every
other cycle scores no higher, and every earlier cycle scores strictly
lower); a successful best_fitting_GMM run likewise returns the fitted
model of the first component count in krange attaining the maximum
evidence. -/
theorem claim_C7 (env : Env) (m : GMM) (x : Mat) (z : Option (List ℕ))
    (niter ninit : ℕ) (delta : ℝ) (pt : PrecType) (krange : List ℕ) (g1 g2 : GMM)
    (hninit : 1 ≤ ninit) (hkr : krange ≠ [])
    (h1 : m.initialize_and_estimate env x z niter delta ninit = .ok g1)
    (h2 : best_fitting_GMM env x krange pt niter delta ninit = .ok g2) :
    (∃ b0, GMM.initialise env (GMM.init m.k m.dim m.prec_type) x 0 = .ok b0 ∧
      ∃ cs : List (GMM × ℝ), cs.length = ninit ∧
        CycleChain env x niter delta m 0 cs ∧
        ∃ i, ∃ hi : i < cs.length,
          g1 = setParams b0 (cs[i]).1 ∧
          (∀ j (hj : j < cs.length), (cs[j]).2 ≤ (cs[i]).2) ∧
          (∀ j (hj : j < i), (cs[j]).2 < (cs[i]).2)) ∧
    (∃ fs : List (GMM × ℝ), ∃ hlen : fs.length = krange.length,
      (∀ j (hj : j < krange.length),
        fitK env x pt niter delta ninit (krange[j]) =
          .ok (fs[j])) ∧
      ∃ i, ∃ hi : i < fs.length,
        g2 = (fs[i]).1 ∧
        (∀ j (hj : j < fs.length), (fs[j]).2 ≤ (fs[i]).2) ∧
        (∀ j (hj : j < i), (fs[j]).2 < (fs[i]).2)) := by
  constructor
  · simp only [GMM.initialize_and_estimate] at h1
    rcases hb0 : (GMM.init m.k m.dim m.prec_type).initialise env x 0 with e | b0
    · rw [hb0, exc_bind_error] at h1
      exact absurd h1 (by simp)
    rw [hb0, exc_bind_ok] at h1
    rcases hloop : iaeLoop env x niter delta ninit 0 m none b0 with e | res
    · rw [hloop, exc_bind_error] at h1
      exact absurd h1 (by simp)
    rw [hloop, exc_bind_ok] at h1
    have hg1 : g1 = res.2.2 := by
      have : Except.ok (ε := Err) res.2.2 = Except.ok g1 := h1
      simpa using this.symm
    obtain ⟨cs, hlen, hchain, hsel⟩ :=
      iae_char env x niter delta ninit 0 m none b0 res hloop
    have hne : cs ≠ [] := by
      intro hc
      rw [hc] at hlen
      simp at hlen
      omega
    obtain ⟨i, hi, heq, hmax, hstrict⟩ :=
      pureSelect_none iaeUpd (fun a p q => rfl) cs b0 hne
    refine ⟨b0, rfl, cs, hlen, hchain, i, hi, ?_, hmax, hstrict⟩
    rw [hg1, hsel, heq]
    rfl
  · simp only [best_fitting_GMM] at h2
    rcases hloop2 : bfgLoop env x pt niter delta ninit krange none with e | st
    · rw [hloop2, exc_bind_error] at h2
      exact absurd h2 (by simp)
    rw [hloop2, exc_bind_ok] at h2
    obtain ⟨fs, hlen, hfits, hsel⟩ :=
      bfg_char env x pt niter delta ninit krange none st hloop2
    have hne2 : fs ≠ [] := by
      intro hc
      rw [hc] at hlen
      exact hkr (List.eq_nil_of_length_eq_zero hlen.symm)
    obtain ⟨i, hi, heq, hmax, hstrict⟩ :=
      pureSelect_none bfgUpd (fun a p q => rfl) fs none hne2
    have hst : st = some ((fs[i]).2, (fs[i]).1) := by
      rw [hsel]
      have hopt : optScore (none : Option (ℝ × GMM)) = none := rfl
      rw [hopt, heq]
      rfl
    rw [hst] at h2
    have hg2 : g2 = (fs[i]).1 := by
      have : Except.ok (ε := Err) (fs[i]).1 = Except.ok g2 := h2
      simpa using this.symm
    exact ⟨fs, hlen, hfits, i, hi, hg2, hmax, hstrict⟩

lemma eval_guessed : guessed (GMM.init 1 1 .full) [[0]] = gW1 := by
  simp [guessed, GMM.init, gW1, empCov, csum, tdot, diagMat, diagVec, matGet, vsub,
    cols, idMat, List.replicate, Real.log_one, Real.exp_zero, List.range_succ,
    List.getD]
  norm_num

lemma eval_check_gW1 : gW1.check = .ok () := by
  simp [GMM.check, gW1, cols, Precs.shape0, Precs.shape1]

lemma eval_check_gW : gW.check = .ok () := by
  simp [GMM.check, gW, cols, Precs.shape0, Precs.shape1]

lemma eval_mstep1 : GMM._Mstep envW gW1 [[0]] [[1]] = gW := by
  have hmax : max tiny (1 : ℝ) = 1 := max_eq_right (by norm_num [tiny])
  simp [GMM._Mstep, GMM.pop, normRows, csum, tdot, cols, vsub, matGet, gW1, gW, envW,
    Precs.fullAt, hmax, List.replicate, List.range_succ, List.getD]

lemma eval_mstep2 : GMM._Mstep envW gW [[0]] [[1]] = gW := by
  have hmax : max tiny (1 : ℝ) = 1 := max_eq_right (by norm_num [tiny])
  simp [GMM._Mstep, GMM.pop, normRows, csum, tdot, cols, vsub, matGet, gW, envW,
    Precs.fullAt, hmax, List.replicate, List.range_succ, List.getD]

lemma eval_init (seed : ℕ) :
    GMM.initialise envW (GMM.init 1 1 .full) [[0]] seed = .ok gW := by
  unfold GMM.initialise
  have hg : (GMM.init 1 1 .full).guess_regularizing [[0]] true = .ok gW1 := by
    unfold GMM.guess_regularizing
    rw [eval_guessed, eval_check_gW1]
    rfl
  rw [hg, exc_bind_ok]
  show Except.ok (GMM._Mstep envW gW1 [[0]] [[1]]) = Except.ok gW
  rw [eval_mstep1]

lemma eval_lik : GMM.likelihood envW gW [[0]] = [[1]] := by
  simp [GMM.likelihood, GMM.unweighted_likelihood, gW, envW, Precs.fullAt, quadForm,
    vsub, cols, matGet, List.range_succ, List.getD]

lemma eval_bic : gW.bic [[1]] = 0 := by
  have hmax : max tiny (1 : ℝ) = 1 := max_eq_right (by norm_num [tiny])
  simp [GMM.bic, gW, hmax, Real.log_one]

lemma eval_estimate : GMM.estimate envW gW [[0]] 1 0 = .ok (gW, 0) := by
  have hcx : gW.check_x [[0]] = .ok [[0]] := by simp [GMM.check_x, gW, cols]
  rw [estimate_run envW gW [[0]] 1 0 hcx]
  have hE : GMM._Estep envW gW [[0]] = [[1]] := eval_lik
  have hloop : estLoop envW [[0]] 0 1 gW none none =
      (GMM._Mstep envW gW [[0]] [[1]], some [[1]]) := by
    simp only [estLoop, hE]
    rw [if_neg (by simp [stopCond])]
  rw [hloop, eval_mstep2]
  show Except.ok (gW, gW.bic [[1]]) = Except.ok (gW, 0)
  rw [eval_bic]

lemma eval_plugin : gW.plugin gW.means gW.precisions gW.weights = .ok gW := by
  unfold GMM.plugin
  change Except.map (fun _ => gW) gW.check = Except.ok gW
  rw [eval_check_gW]
  rfl

lemma eval_iae :
    GMM.initialize_and_estimate envW (GMM.init 1 1 .full) [[0]] none 1 0 1 =
      .ok gW := by
  unfold GMM.initialize_and_estimate
  have h0 : (GMM.init (GMM.init 1 1 .full).k (GMM.init 1 1 .full).dim
      (GMM.init 1 1 .full).prec_type) = GMM.init 1 1 .full := rfl
  rw [h0, eval_init 0, exc_bind_ok]
  have hloop : iaeLoop envW [[0]] 1 0 1 0 (GMM.init 1 1 .full) none gW =
      .ok (gW, some 0, gW) := by
    simp only [iaeLoop]
    rw [eval_init 1, exc_bind_ok, eval_estimate, exc_bind_ok]
    have himp : improves none (gW, (0 : ℝ)).2 = True := rfl
    rw [himp, if_true]
    rw [eval_plugin, exc_bind_ok]
  rw [hloop, exc_bind_ok]
  rfl

lemma eval_evidence : GMM.evidence envW gW [[0]] = .ok 0 := by
  have hcx : gW.check_x [[0]] = .ok [[0]] := by simp [GMM.check_x, gW, cols]
  unfold GMM.evidence
  rw [hcx, exc_bind_ok, eval_lik, eval_bic]
  rfl

lemma eval_fitK : fitK envW [[0]] .full 1 0 1 1 = .ok (gW, 0) := by
  unfold fitK
  have h0 : GMM.init 1 (cols [[(0 : ℝ)]]) .full = GMM.init 1 1 .full := rfl
  rw [h0, eval_iae, exc_bind_ok, eval_evidence, exc_bind_ok]
  rfl

lemma eval_bfg : best_fitting_GMM envW [[0]] [1] .full 1 0 1 = .ok gW := by
  unfold best_fitting_GMM bfgLoop
  rw [eval_fitK, exc_bind_ok]
  rfl

/-- Claim C7 witness: the two selections at a concrete 1-d, k = 1 run
with ninit = 1, krange = [1]. -/
theorem claim_C7_w :
    (1 ≤ 1 ∧ ([1] : List ℕ) ≠ [] ∧
      GMM.initialize_and_estimate envW (GMM.init 1 1 .full) [[0]] none 1 0 1 =
        .ok gW ∧
      best_fitting_GMM envW [[0]] [1] .full 1 0 1 = .ok gW) ∧
    ((∃ b0, GMM.initialise envW (GMM.init (GMM.init 1 1 .full).k
        (GMM.init 1 1 .full).dim (GMM.init 1 1 .full).prec_type) [[0]] 0 =
          .ok b0 ∧
      ∃ cs : List (GMM × ℝ), cs.length = 1 ∧
        CycleChain envW [[0]] 1 0 (GMM.init 1 1 .full) 0 cs ∧
        ∃ i, ∃ hi : i < cs.length,
          gW = setParams b0 (cs[i]).1 ∧
          (∀ j (hj : j < cs.length), (cs[j]).2 ≤ (cs[i]).2) ∧
          (∀ j (hj : j < i), (cs[j]).2 < (cs[i]).2)) ∧
    (∃ fs : List (GMM × ℝ), ∃ hlen : fs.length = ([1] : List ℕ).length,
      (∀ j (hj : j < ([1] : List ℕ).length),
        fitK envW [[0]] .full 1 0 1 (([1] : List ℕ)[j]) =
          .ok (fs[j])) ∧
      ∃ i, ∃ hi : i < fs.length,
        gW = (fs[i]).1 ∧
        (∀ j (hj : j < fs.length), (fs[j]).2 ≤ (fs[i]).2) ∧
        (∀ j (hj : j < i), (fs[j]).2 < (fs[i]).2))) :=
  ⟨⟨Nat.le_refl 1, by simp, eval_iae, eval_bfg⟩,
    claim_C7 envW (GMM.init 1 1 .full) [[0]] none 1 1 0 .full [1] gW gW
      (Nat.le_refl 1) (by simp) eval_iae eval_bfg⟩

end Nipy
